import Mathlib

/-!
# Verification of the currency/price/date/text cleaning core
  (repository `pildora_DataCleaningPython`, file `03_casos_practicos.py`)

Shallow embedding of the classes `LimpiadorEcommerce` and `LimpiadorTemporal`.
Strings are modelled as `List Char`; Python `float` values are idealised as
exact rationals (`ℚ`); a raised `ValueError` is `Except.error ()`; a Python
`None` result is `Option.none`.  Regex matching for the price pattern
`([\d,\.]+)\s*([€$£¥]|EUR|USD|GBP|JPY|euros?|dollars?|pounds?|yen)` with
`re.IGNORECASE` is embedded as an explicit leftmost, greedy, backtracking
matcher, with the alternatives tried in the order they occur in the pattern.
`\w` of `re.sub(r'[^\w\s.,!?()-]', '', …)` is modelled on its ASCII part
(letters, digits, underscore); this does not affect any claim below.
-/

/-- Python whitespace class (`str.strip`, regex `\s`): space, tab, newline,
carriage return, vertical tab, form feed. -/
def isPySpace (c : Char) : Bool :=
  c = ' ' || c = '\t' || c = '\n' || c = '\r' || c = '\x0b' || c = '\x0c'

/-- Characters matched by the numeric part `[\d,\.]` of the price regex. -/
def numChar (c : Char) : Bool :=
  c.isDigit || c = ',' || c = '.'

/-- Python `str.strip()`: drop leading and trailing whitespace. -/
def pyStrip (l : List Char) : List Char :=
  ((l.dropWhile isPySpace).reverse.dropWhile isPySpace).reverse

/-- Numeric value of a big-endian list of digit characters. -/
def natVal (l : List Char) : ℕ :=
  l.foldl (fun a c => 10 * a + (c.toNat - 48)) 0

/-- Characters allowed in a plain decimal literal. -/
def digitDot (c : Char) : Bool :=
  c.isDigit || c = '.'

/-- Python `float(s)` restricted to the strings this program ever passes to it
(strings over digits, `,`, `.`): it succeeds exactly on strings of digits with
at most one `.` and at least one digit, and its IEEE result is idealised as the
exact rational `intpart + fracpart / 10^len(fracpart)` (built with `mkRat`).
Everything else (`"1.2.3"`, `".."`, `"1,2"`, `""`) raises `ValueError`. -/
def pyFloat (l : List Char) : Except Unit ℚ :=
  if l.all digitDot && (l.count '.' ≤ 1 : Bool) && l.any (fun c => c.isDigit) then
    .ok (mkRat
      (natVal (l.takeWhile (fun c => c != '.')) *
          10 ^ ((l.dropWhile (fun c => c != '.')).drop 1).length +
        natVal ((l.dropWhile (fun c => c != '.')).drop 1) : ℕ)
      (10 ^ ((l.dropWhile (fun c => c != '.')).drop 1).length))
  else
    .error ()

/-- Python `str.rfind(c)`: index of the last occurrence of `c`, `-1` if absent. -/
def pyRfind (c : Char) (l : List Char) : ℤ :=
  match l with
  | [] => -1
  | a :: t =>
    let r := pyRfind c t
    if r ≥ 0 then r + 1 else if a = c then 0 else -1

/-- Python `str.split(',')` on a character list. -/
def splitComma (l : List Char) : List (List Char) :=
  match l with
  | [] => [[]]
  | c :: t =>
    if c = ',' then [] :: splitComma t
    else
      match splitComma t with
      | h :: r => (c :: h) :: r
      | [] => [[c]]

namespace LimpiadorEcommerce

/-- `LimpiadorEcommerce._parsear_numero`: disambiguate `,`/`.` as decimal or
thousands separators, then convert with `float`.  A failing `float` raises
(`Except.error`), exactly as in the source, where this helper is not wrapped
in a `try` block. -/
def parsearNumero (numero : List Char) : Except Unit ℚ :=
  let l := pyStrip numero
  if (',' ∈ l) ∧ ('.' ∈ l) then
    -- both separators present
    if pyRfind ',' l > pyRfind '.' l then
      -- European format 1.099,00: drop '.', then ',' -> '.'
      pyFloat ((l.filter (fun c => c != '.')).map (fun c => if c = ',' then '.' else c))
    else
      -- American format 1,099.00: drop ','
      pyFloat (l.filter (fun c => c != ','))
  else if ',' ∈ l then
    -- only comma: decimal iff exactly two groups and ≤ 2 chars after comma
    let partes := splitComma l
    if partes.length = 2 ∧ (partes.getD 1 []).length ≤ 2 then
      pyFloat (l.map (fun c => if c = ',' then '.' else c))
    else
      pyFloat (l.filter (fun c => c != ','))
  else
    pyFloat l

/-- Case-insensitive literal match at the start of `l` (pattern given in
lowercase), as produced by `re.IGNORECASE`. -/
def ciStarts (pat : List Char) (l : List Char) : Bool :=
  (l.take pat.length).map Char.toLower == pat

/-- One attempt of the currency alternation
`[€$£¥]|EUR|USD|GBP|JPY|euros?|dollars?|pounds?|yen` at the head of `l`,
alternatives tried in pattern order, `s?` greedy; returns the matched text
(group 2) with its original casing. -/
def matchCurrency (l : List Char) : Option (List Char) :=
  match l with
  | [] => none
  | c :: _ =>
    if c = '€' || c = '$' || c = '£' || c = '¥' then some [c]
    else if ciStarts ['e', 'u', 'r'] l then some (l.take 3)
    else if ciStarts ['u', 's', 'd'] l then some (l.take 3)
    else if ciStarts ['g', 'b', 'p'] l then some (l.take 3)
    else if ciStarts ['j', 'p', 'y'] l then some (l.take 3)
    else if ciStarts ['e', 'u', 'r', 'o'] l then
      if ciStarts ['e', 'u', 'r', 'o', 's'] l then some (l.take 5) else some (l.take 4)
    else if ciStarts ['d', 'o', 'l', 'l', 'a', 'r'] l then
      if ciStarts ['d', 'o', 'l', 'l', 'a', 'r', 's'] l then some (l.take 7) else some (l.take 6)
    else if ciStarts ['p', 'o', 'u', 'n', 'd'] l then
      if ciStarts ['p', 'o', 'u', 'n', 'd', 's'] l then some (l.take 6) else some (l.take 5)
    else if ciStarts ['y', 'e', 'n'] l then some (l.take 3)
    else none

/-- `\s*` followed by the currency alternation: consume whitespace greedily,
backtracking to shorter whitespace runs on failure. -/
def tryWsCur (l : List Char) : Option (List Char) :=
  match l with
  | [] => none
  | c :: t =>
    if isPySpace c then
      match tryWsCur t with
      | some r => some r
      | none => matchCurrency (c :: t)
    else matchCurrency (c :: t)

/-- `[\d,\.]+` (continued) then `\s*` then the currency alternation: extend
group 1 greedily, backtracking to shorter (nonempty) runs on failure.
`acc` is the reversed group-1 text consumed so far. -/
def tryG1 (acc : List Char) (l : List Char) : Option (List Char × List Char) :=
  let here := (tryWsCur l).map (fun g2 => (acc.reverse, g2))
  match l with
  | [] => here
  | c :: t =>
    if numChar c then
      match tryG1 (c :: acc) t with
      | some r => some r
      | none => here
    else here

/-- `re.search` of the price pattern: leftmost match wins; at each position
group 1 must start with a `[\d,\.]` character.  Returns `(group 1, group 2)`. -/
def reSearch (l : List Char) : Option (List Char × List Char) :=
  match l with
  | [] => none
  | c :: t =>
    match (if numChar c then tryG1 [c] t else none) with
    | some r => some r
    | none => reSearch t

/-- First maximal `[\d,\.]+` run (`re.findall(r'[\d,\.]+', s)[0]` when any). -/
def firstNumRun (l : List Char) : Option (List Char) :=
  match l with
  | [] => none
  | c :: t => if numChar c then some (c :: t.takeWhile numChar) else firstNumRun t

/-- `self.monedas` from `__init__`: marker text to canonical currency code. -/
def monedas : List (String × String) :=
  [("€", "EUR"), ("EUR", "EUR"), ("euros", "EUR"),
   ("$", "USD"), ("USD", "USD"), ("dollars", "USD"),
   ("£", "GBP"), ("GBP", "GBP"), ("pounds", "GBP"),
   ("¥", "JPY"), ("JPY", "JPY"), ("yen", "JPY")]

/-- `self.tasas_cambio` from `__init__` (Python floats idealised as exact
rationals). -/
def tasasCambio : List (String × ℚ) :=
  [("USD", 1), ("EUR", mkRat 85 100), ("GBP", mkRat 73 100), ("JPY", 110)]

/-- Dictionary lookup (`dict.get`). -/
def lookupTab {α : Type} (k : String) (t : List (String × α)) : Option α :=
  (t.find? (fun p => p.1 == k)).map (fun p => p.2)

/-- `LimpiadorEcommerce.normalizar_precio` on an actual string (the
`pd.isna`/`isinstance` guard lives in `normalizarPrecioVal`).  Mirrors the
source line by line: regex search, then `_parsear_numero` on group 1 (NOT
wrapped in `try`, so its `ValueError` propagates), `.upper()` on group 2,
`monedas.get(…, 'USD')`, conversion by the rate when present; with no regex
match, the first `[\d,\.]+` run is parsed inside `try/except` and a failure
becomes `None`. -/
def normalizarPrecio (precio : String) : Except Unit (Option ℚ) :=
  match reSearch (pyStrip precio.data) with
  | some (g1, g2) =>
    match parsearNumero g1 with
    | .error e => .error e
    | .ok precioNum =>
      match lookupTab ((lookupTab (String.mk (g2.map Char.toUpper)) monedas).getD "USD")
          tasasCambio with
      | some tasa => .ok (some (precioNum / tasa))
      | none => .ok (some precioNum)
  | none =>
    match firstNumRun (pyStrip precio.data) with
    | some run =>
      match parsearNumero run with
      | .ok v => .ok (some v)
      | .error _ => .ok none
    | none => .ok none

end LimpiadorEcommerce

/-- A value taken from a pandas column: a string, a float, the missing value
`NaN`, or Python `None`.  This models the dynamic typing that the
`pd.isna(x) or not isinstance(x, str)` guards inspect. -/
inductive PyVal : Type
  | pystr (s : String)
  | pyfloat (q : ℚ)
  | pynan
  | pynone
deriving DecidableEq

/-- `pd.isna` on a scalar: true exactly for `NaN` and `None`. -/
def PyVal.isna : PyVal → Bool
  | .pynan => true
  | .pynone => true
  | _ => false

/-- `isinstance(x, str)`. -/
def PyVal.isStr : PyVal → Bool
  | .pystr _ => true
  | _ => false

namespace LimpiadorEcommerce

/-- `normalizar_precio` as called on a column value: the
`if pd.isna(precio_str) or not isinstance(precio_str, str): return None`
guard, then the string core. -/
def normalizarPrecioVal (v : PyVal) : Except Unit (Option ℚ) :=
  if v.isna || !v.isStr then .ok none
  else
    match v with
    | .pystr s => normalizarPrecio s
    | _ => .ok none

end LimpiadorEcommerce

/-! ## Flexible date parsing (`LimpiadorTemporal`) -/

/-- A `strptime` format token: a literal character or one of the directives
used by `parsear_fecha_flexible` (`%Y %m %d %H %M %S %f`). -/
inductive FmtTok : Type
  | lit (c : Char)
  | dirY
  | dirm
  | dird
  | dirH
  | dirMin
  | dirS
  | dirf
deriving DecidableEq

/-- Translate a Python format string into tokens. -/
def parseFmt (f : List Char) : List FmtTok :=
  match f with
  | '%' :: 'Y' :: t => .dirY :: parseFmt t
  | '%' :: 'm' :: t => .dirm :: parseFmt t
  | '%' :: 'd' :: t => .dird :: parseFmt t
  | '%' :: 'H' :: t => .dirH :: parseFmt t
  | '%' :: 'M' :: t => .dirMin :: parseFmt t
  | '%' :: 'S' :: t => .dirS :: parseFmt t
  | '%' :: 'f' :: t => .dirf :: parseFmt t
  | c :: t => .lit c :: parseFmt t
  | [] => []

/-- Decimal value of a digit character. -/
def digitValC (c : Char) : ℕ := c.toNat - 48

/-- `%Y` matches exactly four digits (CPython `TimeRE`: `\d\d\d\d`). -/
def matchYear (l : List Char) : Option (ℕ × List Char) :=
  match l with
  | a :: b :: c :: d :: t =>
    if a.isDigit && b.isDigit && c.isDigit && d.isDigit then
      some (1000 * digitValC a + 100 * digitValC b + 10 * digitValC c + digitValC d, t)
    else none
  | _ => none

/-- `%m` matches `1[0-2]|0[1-9]|[1-9]`, alternatives in that order. -/
def matchMonth (l : List Char) : Option (ℕ × List Char) :=
  match l with
  | a :: b :: t =>
    if a = '1' && ('0' ≤ b && b ≤ '2') then some (10 + digitValC b, t)
    else if a = '0' && ('1' ≤ b && b ≤ '9') then some (digitValC b, t)
    else if '1' ≤ a && a ≤ '9' then some (digitValC a, b :: t)
    else none
  | [a] => if '1' ≤ a && a ≤ '9' then some (digitValC a, []) else none
  | [] => none

/-- `%d` matches `3[01]|[12]\d|0[1-9]|[1-9]`, alternatives in that order. -/
def matchDay (l : List Char) : Option (ℕ × List Char) :=
  match l with
  | a :: b :: t =>
    if a = '3' && ('0' ≤ b && b ≤ '1') then some (30 + digitValC b, t)
    else if ('1' ≤ a && a ≤ '2') && b.isDigit then some (10 * digitValC a + digitValC b, t)
    else if a = '0' && ('1' ≤ b && b ≤ '9') then some (digitValC b, t)
    else if '1' ≤ a && a ≤ '9' then some (digitValC a, b :: t)
    else none
  | [a] => if '1' ≤ a && a ≤ '9' then some (digitValC a, []) else none
  | [] => none

/-- `%H` matches `2[0-3]|[0-1]\d|\d`, alternatives in that order. -/
def matchHour (l : List Char) : Option (ℕ × List Char) :=
  match l with
  | a :: b :: t =>
    if a = '2' && ('0' ≤ b && b ≤ '3') then some (20 + digitValC b, t)
    else if ('0' ≤ a && a ≤ '1') && b.isDigit then some (10 * digitValC a + digitValC b, t)
    else if a.isDigit then some (digitValC a, b :: t)
    else none
  | [a] => if a.isDigit then some (digitValC a, []) else none
  | [] => none

/-- `%M` matches `[0-5]\d|\d`. -/
def matchMinute (l : List Char) : Option (ℕ × List Char) :=
  match l with
  | a :: b :: t =>
    if ('0' ≤ a && a ≤ '5') && b.isDigit then some (10 * digitValC a + digitValC b, t)
    else if a.isDigit then some (digitValC a, b :: t)
    else none
  | [a] => if a.isDigit then some (digitValC a, []) else none
  | [] => none

/-- `%S` matches `6[0-1]|[0-5]\d|\d` (leap seconds pass the regex but are
rejected later by the `datetime` constructor). -/
def matchSecond (l : List Char) : Option (ℕ × List Char) :=
  match l with
  | a :: b :: t =>
    if a = '6' && ('0' ≤ b && b ≤ '1') then some (60 + digitValC b, t)
    else if ('0' ≤ a && a ≤ '5') && b.isDigit then some (10 * digitValC a + digitValC b, t)
    else if a.isDigit then some (digitValC a, b :: t)
    else none
  | [a] => if a.isDigit then some (digitValC a, []) else none
  | [] => none

/-- `%f` matches `[0-9]{1,6}` greedily; the value is right-padded with zeros
to microseconds. -/
def matchMicro (l : List Char) : Option (ℕ × List Char) :=
  let ds := (l.takeWhile (fun c => c.isDigit)).take 6
  if ds.length = 0 then none
  else some (natVal ds * 10 ^ (6 - ds.length), l.drop ds.length)

/-- A naive `datetime.datetime` (no timezone). -/
structure PyDatetime : Type where
  year : ℕ := 1900
  month : ℕ := 1
  day : ℕ := 1
  hour : ℕ := 0
  minute : ℕ := 0
  second : ℕ := 0
  microsecond : ℕ := 0
deriving DecidableEq

/-- Gregorian leap year. -/
def isLeap (y : ℕ) : Bool := y % 4 = 0 && (y % 100 != 0 || y % 400 = 0)

/-- Days in a month. -/
def daysInMonth (y m : ℕ) : ℕ :=
  if m = 2 then (if isLeap y then 29 else 28)
  else if m = 4 || m = 6 || m = 9 || m = 11 then 30
  else 31

/-- The `datetime` constructor's range check (CPython raises `ValueError`
outside these bounds; `strptime`'s regexes already guarantee most of them). -/
def validDT (dt : PyDatetime) : Bool :=
  1 ≤ dt.year && 1 ≤ dt.month && dt.month ≤ 12 &&
  1 ≤ dt.day && dt.day ≤ daysInMonth dt.year dt.month &&
  dt.hour ≤ 23 && dt.minute ≤ 59 && dt.second ≤ 59 && dt.microsecond ≤ 999999

/-- Run a token list against the input, requiring full consumption
(CPython `_strptime` rejects a match that does not span the whole string). -/
def runFmt (toks : List FmtTok) (l : List Char) (acc : PyDatetime) : Option PyDatetime :=
  match toks with
  | [] => if l = [] then some acc else none
  | .lit c :: ts =>
    match l with
    | x :: xs => if x = c then runFmt ts xs acc else none
    | [] => none
  | .dirY :: ts => (matchYear l).bind (fun p => runFmt ts p.2 { acc with year := p.1 })
  | .dirm :: ts => (matchMonth l).bind (fun p => runFmt ts p.2 { acc with month := p.1 })
  | .dird :: ts => (matchDay l).bind (fun p => runFmt ts p.2 { acc with day := p.1 })
  | .dirH :: ts => (matchHour l).bind (fun p => runFmt ts p.2 { acc with hour := p.1 })
  | .dirMin :: ts => (matchMinute l).bind (fun p => runFmt ts p.2 { acc with minute := p.1 })
  | .dirS :: ts => (matchSecond l).bind (fun p => runFmt ts p.2 { acc with second := p.1 })
  | .dirf :: ts => (matchMicro l).bind (fun p => runFmt ts p.2 { acc with microsecond := p.1 })

/-- `datetime.strptime(data, fmt)` as used here: `None` stands for the
`ValueError` that the caller catches. -/
def strptime (data : List Char) (fmt : String) : Option PyDatetime :=
  match runFmt (parseFmt fmt.data) data {} with
  | some dt => if validDT dt then some dt else none
  | none => none

namespace LimpiadorTemporal

/-- The fixed `formatos` list of `parsear_fecha_flexible`, in source order. -/
def formatos : List String :=
  ["%Y-%m-%d %H:%M:%S",
   "%Y-%m-%d",
   "%d/%m/%Y %H:%M:%S",
   "%d/%m/%Y",
   "%d-%m-%Y %H:%M:%S",
   "%d-%m-%Y",
   "%m/%d/%Y %H:%M:%S",
   "%m/%d/%Y",
   "%Y-%m-%dT%H:%M:%S",
   "%Y-%m-%dT%H:%M:%SZ",
   "%Y-%m-%dT%H:%M:%S.%fZ"]

/-- The `for formato in formatos: try … except ValueError: continue` loop. -/
def tryFormats (l : List Char) : List String → Option PyDatetime
  | [] => none
  | f :: fs =>
    match strptime l f with
    | some dt => some dt
    | none => tryFormats l fs

/-- `LimpiadorTemporal.parsear_fecha_flexible` on an actual string. -/
def parsearFechaFlexible (fecha : String) : Option PyDatetime :=
  tryFormats (pyStrip fecha.data) formatos

/-- `parsear_fecha_flexible` as called on a column value (the
`pd.isna`/`isinstance` guard). -/
def parsearFechaFlexibleVal (v : PyVal) : Option PyDatetime :=
  if v.isna || !v.isStr then none
  else
    match v with
    | .pystr s => parsearFechaFlexible s
    | _ => none

end LimpiadorTemporal

/-! ## Description cleaning (`LimpiadorEcommerce.limpiar_descripcion`) -/

/-- `re.sub(r'<[^>]+>', '', s)`: remove every leftmost non-overlapping match
of `<`, one or more non-`>` characters, `>`; where no match starts, the
character is kept and scanning resumes one position later. -/
def removeTags (l : List Char) : List Char :=
  match l with
  | [] => []
  | c :: t =>
    if c = '<' then
      -- `[^>]+` greedily takes everything before the first `>`; the match
      -- succeeds iff that run is nonempty and a `>` actually follows it.
      if 1 ≤ (t.takeWhile (fun x => x != '>')).length ∧
          t.dropWhile (fun x => x != '>') ≠ [] then
        removeTags ((t.dropWhile (fun x => x != '>')).drop 1)
      else c :: removeTags t
    else c :: removeTags t
termination_by l.length
decreasing_by
  · have h1 : (t.dropWhile (fun x => x != '>')).length ≤ t.length :=
      List.Sublist.length_le (List.dropWhile_sublist _)
    rename_i hcond
    have h2 : t.dropWhile (fun x => x != '>') ≠ [] := hcond.2
    have h3 : 1 ≤ (t.dropWhile (fun x => x != '>')).length :=
      List.length_pos.mpr h2
    simp [List.length_drop]
    omega
  · simp
  · simp

/-- Python `str.replace(old, new)` with a nonempty `old` (written
`o :: oldRest`): one left-to-right pass over non-overlapping occurrences. -/
def replaceAll (o : Char) (oldRest new : List Char) (l : List Char) : List Char :=
  match l with
  | [] => []
  | c :: t =>
    if (o :: oldRest).isPrefixOf (c :: t) then
      new ++ replaceAll o oldRest new (t.drop oldRest.length)
    else c :: replaceAll o oldRest new t
termination_by l.length
decreasing_by
  · simp [List.length_drop]
    omega
  · simp

/-- The `entidades` table, applied in source (insertion) order. -/
def entidades : List (List Char × List Char) :=
  [(['&', 'a', 'm', 'p', ';'], ['&']),
   (['&', 'l', 't', ';'], ['<']),
   (['&', 'g', 't', ';'], ['>']),
   (['&', 'q', 'u', 'o', 't', ';'], ['"']),
   (['&', '#', '3', '9', ';'], ['\'']),
   (['&', 'n', 'b', 's', 'p', ';'], [' '])]

/-- The `for entidad, caracter in entidades.items(): … .replace(…)` loop. -/
def applyEntidades (l : List Char) : List Char :=
  entidades.foldl
    (fun acc p =>
      match p.1 with
      | o :: rest => replaceAll o rest p.2 acc
      | [] => acc) l

/-- The ASCII part of regex `\w`: letters, digits, underscore. -/
def isWordChar (c : Char) : Bool := c.isAlphanum || c = '_'

/-- The character class kept by `re.sub(r'[^\w\s.,!?()-]', '', s)`. -/
def allowedChar (c : Char) : Bool :=
  isWordChar c || isPySpace c ||
  c = '.' || c = ',' || c = '!' || c = '?' || c = '(' || c = ')' || c = '-'

/-- `re.sub(r'\s+', ' ', s)`: each maximal whitespace run becomes one space. -/
def collapseWs (l : List Char) : List Char :=
  match l with
  | [] => []
  | c :: t =>
    if isPySpace c then ' ' :: collapseWs (t.dropWhile isPySpace)
    else c :: collapseWs t
termination_by l.length
decreasing_by
  · have : (t.dropWhile isPySpace).length ≤ t.length :=
      List.Sublist.length_le (List.dropWhile_sublist _)
    simp
    omega
  · simp

namespace LimpiadorEcommerce

/-- `LimpiadorEcommerce.limpiar_descripcion` on an actual string: strip HTML
tags, decode the six entities in order, drop every character outside
`[\w\s.,!?()-]`, collapse whitespace runs to single spaces, strip. -/
def limpiarDescripcion (descripcion : String) : String :=
  String.mk (pyStrip (collapseWs ((applyEntidades (removeTags descripcion.data)).filter allowedChar)))

end LimpiadorEcommerce

/-! ## Decimal stringification (for the re-parse round trip)

`str(float)` on the values this parser produces prints a plain decimal
`digits.digits` form; any nonnegative value with a terminating decimal
expansion is `n / 10^k` with `k ≥ 1` (pad with zeros as `str` does, e.g.
`str(5.0) = "5.0"`), and its printed form is `decStr n k`. -/

/-- Digit character of `d < 10`. -/
def digitChar10 (d : ℕ) : Char := Char.ofNat (48 + d)

/-- Big-endian base-10 digits, with explicit fuel (`fuel ≥ n` suffices). -/
def digitsBEAux (fuel n : ℕ) : List ℕ :=
  match fuel with
  | 0 => []
  | fuel + 1 => if n = 0 then [] else digitsBEAux fuel (n / 10) ++ [n % 10]

/-- Big-endian base-10 digits of `n` (empty for `0`). -/
def digitsBE (n : ℕ) : List ℕ := digitsBEAux n n

/-- Big-endian decimal digits of `n`, left-padded with zeros to length
at least `k + 1`. -/
def decDigits (n k : ℕ) : List ℕ :=
  List.replicate (k + 1 - (digitsBE n).length) 0 ++ digitsBE n

/-- The decimal string of `n / 10^k` (for `k ≥ 1`): the digits of `n` with a
point inserted `k` places from the right, as Python's `str` prints these
floats. -/
def decStr (n k : ℕ) : String :=
  let ds := decDigits n k
  String.mk ((ds.take (ds.length - k)).map digitChar10 ++
    '.' :: (ds.drop (ds.length - k)).map digitChar10)

/-! ## Derived definitions used by the claims (spec-side rules and
output character classes) -/

namespace LimpiadorEcommerce

/-- Characters with which some alternative of the currency alternation can
start (the four symbols, or a letter whose lowercase form begins one of the
codes or words). -/
def currencyStart (c : Char) : Bool :=
  c = '€' || c = '$' || c = '£' || c = '¥' ||
  c.toLower = 'e' || c.toLower = 'u' || c.toLower = 'g' || c.toLower = 'j' ||
  c.toLower = 'd' || c.toLower = 'p' || c.toLower = 'y'

end LimpiadorEcommerce

/-- Modelled from the spec's single-comma sentence: with only `,` present,
exactly one comma-group pair whose second group has at most two characters
makes the comma a decimal separator; otherwise every comma is stripped. -/
def specSingleComma (l : List Char) : List Char :=
  if (splitComma l).length = 2 ∧ ((splitComma l).getD 1 []).length ≤ 2 then
    l.map (fun c => if c = ',' then '.' else c)
  else l.filter (fun c => c != ',')

/-- The separator (`,` or `.`) that occurs rightmost in the string. -/
def rightmostSep (l : List Char) : Option Char :=
  l.reverse.find? (fun c => c = ',' || c = '.')

/-- Modelled from the spec's both-separator sentence: the rightmost separator
is the decimal separator; the other one is stripped. -/
def specBothSeps (l : List Char) : List Char :=
  if rightmostSep l = some ',' then
    (l.filter (fun c => c != '.')).map (fun c => if c = ',' then '.' else c)
  else
    l.filter (fun c => c != ',')

/-- Value of a big-endian digit list. -/
def valDigits (ds : List ℕ) : ℕ := ds.foldl (fun a d => 10 * a + d) 0

/-- Characters that may appear in the OUTPUT of `limpiar_descripcion`: word
characters, the single space, and the seven kept punctuation marks.  (Unlike
`allowedChar`, no other whitespace: runs are collapsed to `' '`.) -/
def allowedOut (c : Char) : Bool :=
  isWordChar c || c = ' ' ||
  c = '.' || c = ',' || c = '!' || c = '?' || c = '(' || c = ')' || c = '-'

/-- No two adjacent whitespace characters. -/
def adjOk (a b : Char) : Prop := ¬(isPySpace a = true ∧ isPySpace b = true)

-- Sanity checks (concrete evaluation; purely structural, no ℚ operations).
example : decStr 50 1 = "5.0" := rfl
example : decStr 0 1 = "0.0" := rfl
example : decStr 119999 2 = "1199.99" := rfl

-- quick sanity examples (concrete evaluation; structural only, no ℚ ops)
example : LimpiadorEcommerce.reSearch "£349.99".data = none := rfl
example : LimpiadorEcommerce.reSearch "1.199,99€".data =
    some ("1.199,99".data, "€".data) := rfl
example : LimpiadorEcommerce.normalizarPrecio "..€" = .error () := rfl
example : LimpiadorEcommerce.normalizarPrecio "abc" = .ok none := rfl
example : LimpiadorTemporal.parsearFechaFlexible "2023-01-15 10:30:00" =
    some ⟨2023, 1, 15, 10, 30, 0, 0⟩ := rfl
example : LimpiadorTemporal.parsearFechaFlexible "15/01/2023 10:30:00" =
    some ⟨2023, 1, 15, 10, 30, 0, 0⟩ := rfl
example : LimpiadorTemporal.parsearFechaFlexible "03/04/2023" =
    some ⟨2023, 4, 3, 0, 0, 0, 0⟩ := rfl
example : LimpiadorTemporal.parsearFechaFlexible "not-a-date" = none := rfl
example : LimpiadorTemporal.parsearFechaFlexible "2023-02-30" = none := rfl
example : LimpiadorTemporal.parsearFechaFlexible "2023-01-15T10:30:00.123Z" =
    some ⟨2023, 1, 15, 10, 30, 0, 123000⟩ := rfl

/-! ## Helper lemmas -/

/-- `tryFormats` returns `none` when every format in the list fails. -/
theorem tryFormats_eq_none (l : List Char) (fs : List String)
    (h : ∀ f ∈ fs, strptime l f = none) :
    LimpiadorTemporal.tryFormats l fs = none := by
  induction fs with
  | nil => rfl
  | cons f fs ih =>
    have h1 : strptime l f = none := h f (List.mem_cons_self f fs)
    have h2 : ∀ g ∈ fs, strptime l g = none := fun g hg => h g (List.mem_cons_of_mem f hg)
    simp [LimpiadorTemporal.tryFormats, h1, ih h2]

namespace LimpiadorEcommerce

theorem ciStarts_true_iff (pat l : List Char) :
    ciStarts pat l = true ↔ (l.take pat.length).map Char.toLower = pat := by
  simp [ciStarts]

theorem ciStarts_cons_false {p c : Char} (pat t : List Char)
    (h : c.toLower ≠ p) : ciStarts (p :: pat) (c :: t) = false := by
  apply Bool.eq_false_iff.mpr
  intro hc
  rw [ciStarts_true_iff, List.length_cons, List.take_succ_cons, List.map_cons] at hc
  injection hc with h1 h2
  exact h h1

theorem matchCurrency_eq_none {c : Char} (t : List Char)
    (h : currencyStart c = false) : matchCurrency (c :: t) = none := by
  have hnot : ¬currencyStart c = true := by simp [h]
  have hEu : c ≠ '€' := fun hc => hnot (by simp [currencyStart, hc])
  have hDo : c ≠ '$' := fun hc => hnot (by simp [currencyStart, hc])
  have hPo : c ≠ '£' := fun hc => hnot (by simp [currencyStart, hc])
  have hYe : c ≠ '¥' := fun hc => hnot (by simp [currencyStart, hc])
  have he : c.toLower ≠ 'e' := fun hc => hnot (by simp [currencyStart, hc])
  have hu : c.toLower ≠ 'u' := fun hc => hnot (by simp [currencyStart, hc])
  have hg : c.toLower ≠ 'g' := fun hc => hnot (by simp [currencyStart, hc])
  have hj : c.toLower ≠ 'j' := fun hc => hnot (by simp [currencyStart, hc])
  have hd : c.toLower ≠ 'd' := fun hc => hnot (by simp [currencyStart, hc])
  have hp : c.toLower ≠ 'p' := fun hc => hnot (by simp [currencyStart, hc])
  have hy : c.toLower ≠ 'y' := fun hc => hnot (by simp [currencyStart, hc])
  simp [matchCurrency, hEu, hDo, hPo, hYe,
    ciStarts_cons_false _ _ he, ciStarts_cons_false _ _ hu,
    ciStarts_cons_false _ _ hg, ciStarts_cons_false _ _ hj,
    ciStarts_cons_false _ _ hd, ciStarts_cons_false _ _ hp,
    ciStarts_cons_false _ _ hy]

/-- With no currency-start character anywhere, the `\s*`+currency part fails. -/
theorem tryWsCur_eq_none {l : List Char}
    (h : ∀ c ∈ l, currencyStart c = false) : tryWsCur l = none := by
  induction l with
  | nil => rfl
  | cons c t ih =>
    have hmc : matchCurrency (c :: t) = none :=
      matchCurrency_eq_none t (h c (List.mem_cons_self c t))
    have ht : tryWsCur t = none := ih (fun x hx => h x (List.mem_cons_of_mem c hx))
    simp [tryWsCur, hmc, ht]

/-- With no currency-start character anywhere, group 1 cannot complete. -/
theorem tryG1_eq_none {l : List Char} (acc : List Char)
    (h : ∀ c ∈ l, currencyStart c = false) : tryG1 acc l = none := by
  induction l generalizing acc with
  | nil => simp [tryG1, tryWsCur]
  | cons c t ih =>
    have hwc : tryWsCur (c :: t) = none := tryWsCur_eq_none h
    have ht : tryG1 (c :: acc) t = none :=
      ih (c :: acc) (fun x hx => h x (List.mem_cons_of_mem c hx))
    simp [tryG1, hwc, ht]

/-- `re.search` of the price pattern fails on strings with no character that
can start a currency marker. -/
theorem reSearch_eq_none {l : List Char}
    (h : ∀ c ∈ l, currencyStart c = false) : reSearch l = none := by
  induction l with
  | nil => rfl
  | cons c t ih =>
    have ht : reSearch t = none := ih (fun x hx => h x (List.mem_cons_of_mem c hx))
    have hg : tryG1 [c] t = none :=
      tryG1_eq_none [c] (fun x hx => h x (List.mem_cons_of_mem c hx))
    cases hnum : numChar c <;> simp [reSearch, hnum, hg, ht]

end LimpiadorEcommerce

/-- Dropping nothing: a list with no whitespace character is unchanged by
`dropWhile isPySpace`. -/
theorem dropWhile_isPySpace_eq_self {l : List Char}
    (h : ∀ c ∈ l, isPySpace c = false) : l.dropWhile isPySpace = l := by
  cases l with
  | nil => rfl
  | cons c t =>
    rw [List.dropWhile_cons_of_neg]
    simp [h c (List.mem_cons_self c t)]

/-- A list with no whitespace character is unchanged by `strip()`. -/
theorem pyStrip_eq_self {l : List Char}
    (h : ∀ c ∈ l, isPySpace c = false) : pyStrip l = l := by
  unfold pyStrip
  rw [dropWhile_isPySpace_eq_self h]
  rw [dropWhile_isPySpace_eq_self (by intro c hc; exact h c (List.mem_reverse.mp hc))]
  exact List.reverse_reverse l

/-- Digits, commas and periods are not whitespace. -/
theorem numChar_not_space {c : Char} (h : numChar c = true) : isPySpace c = false := by
  apply Bool.eq_false_iff.mpr
  intro hs
  simp only [isPySpace, Bool.or_eq_true, decide_eq_true_eq] at hs
  rcases hs with (((((hs | hs) | hs) | hs) | hs) | hs) <;> subst hs <;>
    exact absurd h (by decide)

/-- `takeWhile` over a list all of whose elements satisfy the predicate. -/
theorem takeWhile_eq_self {p : Char → Bool} {l : List Char}
    (h : ∀ c ∈ l, p c = true) : l.takeWhile p = l := by
  induction l with
  | nil => rfl
  | cons c t ih =>
    rw [List.takeWhile_cons_of_pos (h c (List.mem_cons_self c t))]
    rw [ih (fun x hx => h x (List.mem_cons_of_mem c hx))]

/-- On a string made entirely of `[\d,\.]` characters, the first `findall`
run is the whole string. -/
theorem firstNumRun_eq_self {c : Char} {t : List Char}
    (h : ∀ x ∈ c :: t, numChar x = true) :
    LimpiadorEcommerce.firstNumRun (c :: t) = some (c :: t) := by
  rw [LimpiadorEcommerce.firstNumRun]
  rw [if_pos (h c (List.mem_cons_self c t))]
  rw [takeWhile_eq_self (fun x hx => h x (List.mem_cons_of_mem c hx))]

/-! ## Claims C2, C3, C4, C5 (currency resolution and error behaviour) -/

/-- Claim C2: the spec (and the `monedas` table itself) says a detected
word-form marker is mapped to its canonical code and converted by that
currency's rate.  The code uppercases the matched marker before the lookup,
so the lowercase word keys of `monedas` are unreachable: `"100 pounds"`
detects the marker `pounds`, misses the table as `POUNDS`, silently falls
back to `USD` and returns `100` instead of `100/0.73`.  (`"100 euros"` still
converts by the EUR rate, but only because the case-insensitive `EUR`
alternative matches the prefix `eur` first.) -/
theorem parse_price_word_marker_table_bug :
    LimpiadorEcommerce.normalizarPrecio "100 pounds" = .ok (some (100 : ℚ)) ∧
    (100 : ℚ) ≠ 10000 / 73 ∧
    LimpiadorEcommerce.normalizarPrecio "100 euros" = .ok (some (2000 / 17 : ℚ)) := by
  refine ⟨?_, by norm_num, ?_⟩
  · have h : LimpiadorEcommerce.normalizarPrecio "100 pounds" =
        .ok (some ((mkRat 100 1 : ℚ) / 1)) := rfl
    rw [h]
    norm_num [Rat.mkRat_eq_div]
  · have h : LimpiadorEcommerce.normalizarPrecio "100 euros" =
        .ok (some ((mkRat 100 1 : ℚ) / mkRat 85 100)) := rfl
    rw [h]
    norm_num [Rat.mkRat_eq_div]

/-- Claim C3 counterexample: the price regex requires the currency marker to
FOLLOW the numeric run, so in `"£349.99"` the `£` is never detected: the
search fails, the fallback digit-run path runs, and the result is the raw
`349.99` (not the GBP-converted `349.99/0.73`). -/
theorem currency_marker_before_digits_not_detected :
    LimpiadorEcommerce.reSearch (pyStrip "£349.99".data) = none ∧
    LimpiadorEcommerce.normalizarPrecio "£349.99" = .ok (some (34999 / 100 : ℚ)) ∧
    (34999 / 100 : ℚ) ≠ 34999 / 73 := by
  refine ⟨rfl, ?_, by norm_num⟩
  have h : LimpiadorEcommerce.normalizarPrecio "£349.99" =
      .ok (some (mkRat 34999 100 : ℚ)) := rfl
  rw [h]
  norm_num [Rat.mkRat_eq_div]

/-- Claim C3 (amended): currency-marker detection applies the prioritized
alternation only at the position immediately after the numeric run (after
optional whitespace).  A string with no possible marker start is never
matched; a marker after the digits (`"349.99£"`) is detected and converted;
a marker that only precedes the digits (`"£349.99"`) is not detected and the
value is assumed to be in the reference currency. -/
theorem currency_marker_detection_after_number :
    (∀ l : List Char, (∀ c ∈ l, LimpiadorEcommerce.currencyStart c = false) →
      LimpiadorEcommerce.reSearch l = none) ∧
    LimpiadorEcommerce.normalizarPrecio "349.99£" = .ok (some (34999 / 73 : ℚ)) ∧
    LimpiadorEcommerce.normalizarPrecio "£349.99" = .ok (some (34999 / 100 : ℚ)) := by
  refine ⟨fun l h => LimpiadorEcommerce.reSearch_eq_none h, ?_, ?_⟩
  · have h : LimpiadorEcommerce.normalizarPrecio "349.99£" =
        .ok (some ((mkRat 34999 100 : ℚ) / mkRat 73 100)) := rfl
    rw [h]
    norm_num [Rat.mkRat_eq_div]
  · have h : LimpiadorEcommerce.normalizarPrecio "£349.99" =
        .ok (some (mkRat 34999 100 : ℚ)) := rfl
    rw [h]
    norm_num [Rat.mkRat_eq_div]

/-- Witness for the amended claim C3 at a concrete input. -/
theorem currency_marker_detection_after_number_witness :
    LimpiadorEcommerce.reSearch "x+z".data = none :=
  currency_marker_detection_after_number.1 "x+z".data (by decide)

/-- Claim C4: the spec (and the docstring, `None si no es válido`) promises a
recoverable per-record failure, but `_parsear_numero` is called on the regex
group WITHOUT a `try` block: `"1.2.3€"` raises `ValueError` out of
`normalizar_precio` (modelled `Except.error`), while the same bad number
without a currency marker goes through the guarded fallback and returns
`None`. -/
theorem currency_branch_parse_failure_raises :
    LimpiadorEcommerce.normalizarPrecio "1.2.3€" = .error () ∧
    LimpiadorEcommerce.normalizarPrecio "1.2.3" = .ok none := ⟨rfl, rfl⟩

/-- Claim C5: `"..€"` contains no digit at all, yet `[\d,\.]+` happily
matches `".."` next to the `€`, and the unguarded `float("..")` raises
instead of producing the promised `NoNumericToken`-style `None`; a digitless
string with no such run (`"abc"`) does return `None`. -/
theorem digitless_string_with_currency_raises :
    "..€".data.all (fun c => !c.isDigit) = true ∧
    LimpiadorEcommerce.normalizarPrecio "..€" = .error () ∧
    LimpiadorEcommerce.normalizarPrecio "abc" = .ok none := ⟨by decide, rfl, rfl⟩

/-! ## Claim C7 (flexible date parsing) -/

/-- Claim C7: the date parser tries the fixed format list in order and
returns the first match: the ISO string and the European string parse to the
identical timestamp; for an ambiguous `03/04/2023` the DD/MM format wins
(day 3, month 4) because it is listed before MM/DD; and a string matching
no candidate yields `None`. -/
theorem date_formats_tried_in_order :
    LimpiadorTemporal.parsearFechaFlexible "2023-01-15 10:30:00" =
      some ⟨2023, 1, 15, 10, 30, 0, 0⟩ ∧
    LimpiadorTemporal.parsearFechaFlexible "15/01/2023 10:30:00" =
      some ⟨2023, 1, 15, 10, 30, 0, 0⟩ ∧
    LimpiadorTemporal.parsearFechaFlexible "03/04/2023" =
      some ⟨2023, 4, 3, 0, 0, 0, 0⟩ ∧
    (∀ s : String,
      (∀ f ∈ LimpiadorTemporal.formatos, strptime (pyStrip s.data) f = none) →
      LimpiadorTemporal.parsearFechaFlexible s = none) ∧
    LimpiadorTemporal.parsearFechaFlexible "not-a-date" = none := by
  refine ⟨rfl, rfl, rfl, ?_, rfl⟩
  intro s h
  exact tryFormats_eq_none _ _ h

/-- Witness for claim C7 at a concrete unparseable input. -/
theorem date_formats_tried_in_order_witness :
    LimpiadorTemporal.parsearFechaFlexible "99/99" = none :=
  date_formats_tried_in_order.2.2.2.1 "99/99" (by decide)

/-! ## Claim C9 (non-string / missing inputs) -/

/-- Claim C9: both public entry points guard with
`pd.isna(x) or not isinstance(x, str)` and return `None` for every
non-string (float, `NaN`, `None`) column value, without raising. -/
theorem non_string_inputs_return_none :
    ∀ v : PyVal, v.isStr = false →
      LimpiadorEcommerce.normalizarPrecioVal v = .ok none ∧
      LimpiadorTemporal.parsearFechaFlexibleVal v = none := by
  intro v h
  cases v with
  | pystr s => exact absurd h (by simp [PyVal.isStr])
  | pyfloat q =>
    exact ⟨by simp [LimpiadorEcommerce.normalizarPrecioVal, PyVal.isna, PyVal.isStr],
      by simp [LimpiadorTemporal.parsearFechaFlexibleVal, PyVal.isna, PyVal.isStr]⟩
  | pynan =>
    exact ⟨by simp [LimpiadorEcommerce.normalizarPrecioVal, PyVal.isna, PyVal.isStr],
      by simp [LimpiadorTemporal.parsearFechaFlexibleVal, PyVal.isna, PyVal.isStr]⟩
  | pynone =>
    exact ⟨by simp [LimpiadorEcommerce.normalizarPrecioVal, PyVal.isna, PyVal.isStr],
      by simp [LimpiadorTemporal.parsearFechaFlexibleVal, PyVal.isna, PyVal.isStr]⟩

/-- Witness for claim C9 at the missing value `NaN`. -/
theorem non_string_inputs_return_none_witness :
    LimpiadorEcommerce.normalizarPrecioVal PyVal.pynan = .ok none ∧
    LimpiadorTemporal.parsearFechaFlexibleVal PyVal.pynan = none :=
  non_string_inputs_return_none PyVal.pynan rfl

/-! ## Claim C6 (single-comma disambiguation) -/

/-- Claim C6 counterexample: the claim reads `"12,345"` as the decimal
`12.345`, but the rule it itself states (comma is decimal only when at most
2 digits follow) strips the comma: the code yields `12345`. -/
theorem single_comma_three_digit_group_is_thousands :
    LimpiadorEcommerce.parsearNumero "12,345".data = .ok (12345 : ℚ) ∧
    (12345 : ℚ) ≠ 12345 / 1000 := by
  constructor
  · have h : LimpiadorEcommerce.parsearNumero "12,345".data =
        .ok (mkRat 12345 1 : ℚ) := rfl
    rw [h]
    norm_num [Rat.mkRat_eq_div]
  · norm_num

/-- Claim C6 (amended): the single-comma rule is exactly as stated (two
groups and ≤ 2 trailing characters ⇒ decimal, otherwise strip), and hence
`"12,345"` is read as twelve thousand three hundred forty-five, while
`"12,34"` is read as the decimal `12.34`. -/
theorem single_comma_rule :
    (∀ l : List Char, (∀ c ∈ l, numChar c = true) → ',' ∈ l → '.' ∉ l →
      LimpiadorEcommerce.parsearNumero l = pyFloat (specSingleComma l)) ∧
    LimpiadorEcommerce.parsearNumero "12,345".data = .ok (12345 : ℚ) ∧
    LimpiadorEcommerce.parsearNumero "12,34".data = .ok (617 / 50 : ℚ) := by
  refine ⟨?_, ?_, ?_⟩
  · intro l h hc hd
    unfold LimpiadorEcommerce.parsearNumero
    rw [pyStrip_eq_self (fun c hcl => numChar_not_space (h c hcl))]
    rw [if_neg (by intro hb; exact hd hb.2)]
    rw [if_pos hc]
    unfold specSingleComma
    by_cases hcond : (splitComma l).length = 2 ∧ ((splitComma l).getD 1 []).length ≤ 2
    · rw [if_pos hcond, if_pos hcond]
    · rw [if_neg hcond, if_neg hcond]
  · have h : LimpiadorEcommerce.parsearNumero "12,345".data =
        .ok (mkRat 12345 1 : ℚ) := rfl
    rw [h]
    norm_num [Rat.mkRat_eq_div]
  · have h : LimpiadorEcommerce.parsearNumero "12,34".data =
        .ok (mkRat 1234 100 : ℚ) := rfl
    rw [h]
    norm_num [Rat.mkRat_eq_div]

/-- Witness for the amended claim C6 at a concrete input. -/
theorem single_comma_rule_witness :
    LimpiadorEcommerce.parsearNumero "1099,00".data =
      pyFloat (specSingleComma "1099,00".data) :=
  single_comma_rule.1 "1099,00".data (by decide) (by decide) (by decide)

/-! ## Claim C1 (both separators: rightmost is decimal) -/

theorem pyRfind_eq_neg_one {c : Char} {l : List Char} (h : c ∉ l) :
    pyRfind c l = -1 := by
  induction l with
  | nil => rfl
  | cons a t ih =>
    have hat : c ∉ t := fun hm => h (List.mem_cons_of_mem a hm)
    have hac : a ≠ c := fun he => h (he ▸ List.mem_cons_self a t)
    simp [pyRfind, ih hat, hac]

theorem pyRfind_nonneg {c : Char} {l : List Char} (h : c ∈ l) :
    0 ≤ pyRfind c l := by
  induction l with
  | nil => exact absurd h (List.not_mem_nil c)
  | cons a t ih =>
    by_cases hat : c ∈ t
    · have := ih hat
      simp only [pyRfind]
      rw [if_pos this]
      omega
    · have hac : a = c := by
        rcases List.mem_cons.mp h with he | hm
        · exact he.symm
        · exact absurd hm hat
      simp [pyRfind, pyRfind_eq_neg_one hat, hac]

theorem pyRfind_cons_of_mem {c a : Char} {t : List Char} (h : c ∈ t) :
    pyRfind c (a :: t) = pyRfind c t + 1 := by
  simp only [pyRfind]
  rw [if_pos (pyRfind_nonneg h)]

theorem pyRfind_cons_self_of_not_mem {c : Char} {t : List Char} (h : c ∉ t) :
    pyRfind c (c :: t) = 0 := by
  have hneg := pyRfind_eq_neg_one h
  simp [pyRfind, hneg]

/-- With a comma present but no period, the rightmost separator is `,`. -/
theorem rightmostSep_eq_comma {t : List Char} (hct : ',' ∈ t) (hdt : '.' ∉ t) :
    t.reverse.find? (fun c => c = ',' || c = '.') = some ',' := by
  have hsome : (t.reverse.find? (fun c => c = ',' || c = '.')).isSome := by
    rw [List.find?_isSome]
    exact ⟨',', List.mem_reverse.mpr hct, by simp⟩
  obtain ⟨x, hx⟩ := Option.isSome_iff_exists.mp hsome
  have hpx := List.find?_some hx
  have hmem := List.mem_reverse.mp (List.mem_of_find?_eq_some hx)
  simp only [Bool.or_eq_true, decide_eq_true_eq] at hpx
  rcases hpx with he | he
  · rw [hx, he]
  · exact absurd (he ▸ hmem) hdt

/-- Symmetrically, with a period present but no comma. -/
theorem rightmostSep_eq_dot {t : List Char} (hdt : '.' ∈ t) (hct : ',' ∉ t) :
    t.reverse.find? (fun c => c = ',' || c = '.') = some '.' := by
  have hsome : (t.reverse.find? (fun c => c = ',' || c = '.')).isSome := by
    rw [List.find?_isSome]
    exact ⟨'.', List.mem_reverse.mpr hdt, by simp⟩
  obtain ⟨x, hx⟩ := Option.isSome_iff_exists.mp hsome
  have hpx := List.find?_some hx
  have hmem := List.mem_reverse.mp (List.mem_of_find?_eq_some hx)
  simp only [Bool.or_eq_true, decide_eq_true_eq] at hpx
  rcases hpx with he | he
  · exact absurd (he ▸ hmem) hct
  · rw [hx, he]

/-- The code's `rfind(',') > rfind('.')` test agrees with the spec's
"rightmost separator" formulation whenever both separators occur. -/
theorem pyRfind_comma_gt_iff {l : List Char} (hc : ',' ∈ l) (hd : '.' ∈ l) :
    pyRfind ',' l > pyRfind '.' l ↔ rightmostSep l = some ',' := by
  induction l with
  | nil => exact absurd hc (List.not_mem_nil ',')
  | cons a t ih =>
    unfold rightmostSep
    rw [List.reverse_cons, List.find?_append]
    by_cases hct : ',' ∈ t <;> by_cases hdt : '.' ∈ t
    · -- both separators already in the tail: head is irrelevant
      rw [pyRfind_cons_of_mem hct, pyRfind_cons_of_mem hdt]
      have hfind : (t.reverse.find? (fun c => c = ',' || c = '.')).isSome :=
        List.find?_isSome.mpr ⟨',', List.mem_reverse.mpr hct, by simp⟩
      obtain ⟨x, hx⟩ := Option.isSome_iff_exists.mp hfind
      rw [hx, Option.or_some]
      have := ih hct hdt
      unfold rightmostSep at this
      rw [hx] at this
      constructor
      · intro hgt; exact this.mp (by omega)
      · intro he; have := this.mpr he; omega
    · -- comma in tail, period only at the head
      have ha : a = '.' := by
        rcases List.mem_cons.mp hd with he | hm
        · exact he.symm
        · exact absurd hm hdt
      rw [pyRfind_cons_of_mem hct, ha, pyRfind_cons_self_of_not_mem hdt]
      rw [rightmostSep_eq_comma hct hdt, Option.or_some]
      have := pyRfind_nonneg hct
      constructor
      · intro _; rfl
      · intro _; omega
    · -- period in tail, comma only at the head
      have ha : a = ',' := by
        rcases List.mem_cons.mp hc with he | hm
        · exact he.symm
        · exact absurd hm hct
      rw [pyRfind_cons_of_mem hdt, ha, pyRfind_cons_self_of_not_mem hct]
      rw [rightmostSep_eq_dot hdt hct, Option.or_some]
      have := pyRfind_nonneg hdt
      constructor
      · intro hgt; omega
      · intro he; exact absurd he (by simp)
    · -- neither separator in the tail: impossible, the head cannot be both
      have ha1 : a = ',' := by
        rcases List.mem_cons.mp hc with he | hm
        · exact he.symm
        · exact absurd hm hct
      have ha2 : a = '.' := by
        rcases List.mem_cons.mp hd with he | hm
        · exact he.symm
        · exact absurd hm hdt
      rw [ha1] at ha2
      exact absurd ha2 (by decide)

/-- Claim C1: with both `,` and `.` present in the numeric substring, the
parser's transformation is exactly the spec's "rightmost separator is the
decimal separator, the other is stripped" rule; consequently the European
`"1.199,99€"` and the American `"1,199.99€"` normalize to the same value
`1199.99 / 0.85`. -/
theorem parse_price_rightmost_separator_rule :
    (∀ l : List Char, (∀ c ∈ l, numChar c = true) → ',' ∈ l → '.' ∈ l →
      LimpiadorEcommerce.parsearNumero l = pyFloat (specBothSeps l)) ∧
    LimpiadorEcommerce.normalizarPrecio "1.199,99€" = .ok (some (119999 / 85 : ℚ)) ∧
    LimpiadorEcommerce.normalizarPrecio "1,199.99€" = .ok (some (119999 / 85 : ℚ)) := by
  refine ⟨?_, ?_, ?_⟩
  · intro l h hc hd
    unfold LimpiadorEcommerce.parsearNumero
    rw [pyStrip_eq_self (fun c hcl => numChar_not_space (h c hcl))]
    rw [if_pos ⟨hc, hd⟩]
    unfold specBothSeps
    by_cases hcmp : pyRfind ',' l > pyRfind '.' l
    · rw [if_pos hcmp, if_pos ((pyRfind_comma_gt_iff hc hd).mp hcmp)]
    · rw [if_neg hcmp, if_neg (fun he => hcmp ((pyRfind_comma_gt_iff hc hd).mpr he))]
  · have h : LimpiadorEcommerce.normalizarPrecio "1.199,99€" =
        .ok (some ((mkRat 119999 100 : ℚ) / mkRat 85 100)) := rfl
    rw [h]
    norm_num [Rat.mkRat_eq_div]
  · have h : LimpiadorEcommerce.normalizarPrecio "1,199.99€" =
        .ok (some ((mkRat 119999 100 : ℚ) / mkRat 85 100)) := rfl
    rw [h]
    norm_num [Rat.mkRat_eq_div]

/-- Witness for claim C1 at a concrete input. -/
theorem parse_price_rightmost_separator_rule_witness :
    LimpiadorEcommerce.parsearNumero "1.099,00".data =
      pyFloat (specBothSeps "1.099,00".data) :=
  parse_price_rightmost_separator_rule.1 "1.099,00".data (by decide) (by decide) (by decide)

/-! ## Claim C8 (re-parsing the stringified value) -/

theorem foldl_valDigits (ds : List ℕ) :
    ∀ a : ℕ, ds.foldl (fun a d => 10 * a + d) a = a * 10 ^ ds.length + valDigits ds := by
  induction ds with
  | nil => intro a; simp [valDigits]
  | cons d t ih =>
    intro a
    have hv : valDigits (d :: t) = d * 10 ^ t.length + valDigits t := by
      show t.foldl (fun a d => 10 * a + d) (10 * 0 + d) = _
      rw [ih (10 * 0 + d)]
      ring
    rw [List.foldl_cons, ih (10 * a + d), hv, List.length_cons]
    ring

theorem valDigits_append (l1 l2 : List ℕ) :
    valDigits (l1 ++ l2) = valDigits l1 * 10 ^ l2.length + valDigits l2 := by
  unfold valDigits
  rw [List.foldl_append]
  exact foldl_valDigits l2 _

theorem valDigits_replicate_zero (m : ℕ) : valDigits (List.replicate m 0) = 0 := by
  induction m with
  | zero => rfl
  | succ m ih =>
    show valDigits (0 :: List.replicate m 0) = 0
    unfold valDigits at ih ⊢
    simpa using ih

theorem valDigits_digitsBEAux {fuel n : ℕ} (h : n ≤ fuel) :
    valDigits (digitsBEAux fuel n) = n := by
  induction fuel generalizing n with
  | zero => interval_cases n; rfl
  | succ fuel ih =>
    by_cases hn : n = 0
    · subst hn; simp [digitsBEAux, valDigits]
    · have hdiv : n / 10 ≤ fuel := by
        have := Nat.div_lt_self (Nat.pos_of_ne_zero hn) (by norm_num : 1 < 10)
        omega
      rw [digitsBEAux, if_neg hn, valDigits_append, ih hdiv]
      simp [valDigits]
      omega

theorem valDigits_digitsBE (n : ℕ) : valDigits (digitsBE n) = n :=
  valDigits_digitsBEAux le_rfl

theorem digitsBEAux_lt_ten {fuel n : ℕ} : ∀ d ∈ digitsBEAux fuel n, d < 10 := by
  induction fuel generalizing n with
  | zero => intro d hd; exact absurd hd (List.not_mem_nil d)
  | succ fuel ih =>
    intro d hd
    rw [digitsBEAux] at hd
    by_cases hn : n = 0
    · rw [if_pos hn] at hd; exact absurd hd (List.not_mem_nil d)
    · rw [if_neg hn] at hd
      rcases List.mem_append.mp hd with hm | hm
      · exact ih d hm
      · rw [List.mem_singleton.mp hm]
        exact Nat.mod_lt n (by norm_num)

theorem decDigits_lt_ten {n k : ℕ} : ∀ d ∈ decDigits n k, d < 10 := by
  intro d hd
  rcases List.mem_append.mp hd with hm | hm
  · rw [List.eq_of_mem_replicate hm]; norm_num
  · exact digitsBEAux_lt_ten d hm

theorem valDigits_decDigits (n k : ℕ) : valDigits (decDigits n k) = n := by
  unfold decDigits
  rw [valDigits_append, valDigits_replicate_zero, valDigits_digitsBE]
  ring

theorem decDigits_length (n k : ℕ) : k + 1 ≤ (decDigits n k).length := by
  unfold decDigits
  rw [List.length_append, List.length_replicate]
  omega

theorem digitChar10_isDigit {d : ℕ} (h : d < 10) : (digitChar10 d).isDigit = true := by
  interval_cases d <;> decide

theorem digitChar10_toNat {d : ℕ} (h : d < 10) : (digitChar10 d).toNat - 48 = d := by
  interval_cases d <;> decide

theorem digitChar10_ne_dot {d : ℕ} (h : d < 10) : digitChar10 d ≠ '.' := by
  interval_cases d <;> decide

theorem digitChar10_ne_comma {d : ℕ} (h : d < 10) : digitChar10 d ≠ ',' := by
  interval_cases d <;> decide

theorem digitChar10_not_space {d : ℕ} (h : d < 10) : isPySpace (digitChar10 d) = false := by
  interval_cases d <;> decide

theorem digitChar10_not_currency {d : ℕ} (h : d < 10) :
    LimpiadorEcommerce.currencyStart (digitChar10 d) = false := by
  interval_cases d <;> decide

theorem digitChar10_numChar {d : ℕ} (h : d < 10) : numChar (digitChar10 d) = true := by
  interval_cases d <;> decide

theorem digitChar10_digitDot {d : ℕ} (h : d < 10) : digitDot (digitChar10 d) = true := by
  interval_cases d <;> decide

theorem natVal_map_digitChar {ds : List ℕ} (h : ∀ d ∈ ds, d < 10) :
    natVal (ds.map digitChar10) = valDigits ds := by
  unfold natVal valDigits
  induction ds with
  | nil => rfl
  | cons d t ih =>
    rw [List.map_cons, List.foldl_cons, List.foldl_cons,
      digitChar10_toNat (h d (List.mem_cons_self d t))]
    have hrec := fun hh => ih hh
    -- both folds now start from the same accumulator; redo the induction
    -- at the level of general accumulators
    clear ih hrec
    have haux : ∀ (l : List ℕ), (∀ d ∈ l, d < 10) → ∀ a : ℕ,
        (l.map digitChar10).foldl (fun a c => 10 * a + (c.toNat - 48)) a =
        l.foldl (fun a d => 10 * a + d) a := by
      intro l hl
      induction l with
      | nil => intro a; rfl
      | cons e u ihu =>
        intro a
        rw [List.map_cons, List.foldl_cons, List.foldl_cons,
          digitChar10_toNat (hl e (List.mem_cons_self e u))]
        exact ihu (fun x hx => hl x (List.mem_cons_of_mem e hx)) _
    exact haux t (fun x hx => h x (List.mem_cons_of_mem d hx)) _

theorem takeWhile_append_stop {p : Char → Bool} {A : List Char} {x : Char} {B : List Char}
    (hA : ∀ c ∈ A, p c = true) (hx : p x = false) :
    (A ++ x :: B).takeWhile p = A := by
  induction A with
  | nil => simpa [List.takeWhile_cons] using hx
  | cons a t ih =>
    rw [List.cons_append, List.takeWhile_cons_of_pos (hA a (List.mem_cons_self a t))]
    rw [ih (fun c hc => hA c (List.mem_cons_of_mem a hc))]

theorem dropWhile_append_stop {p : Char → Bool} {A : List Char} {x : Char} {B : List Char}
    (hA : ∀ c ∈ A, p c = true) (hx : p x = false) :
    (A ++ x :: B).dropWhile p = x :: B := by
  induction A with
  | nil => simp [List.dropWhile_cons, hx]
  | cons a t ih =>
    rw [List.cons_append, List.dropWhile_cons_of_pos (hA a (List.mem_cons_self a t))]
    exact ih (fun c hc => hA c (List.mem_cons_of_mem a hc))

/-- `firstNumRun` on a nonempty all-numeric string returns the whole string. -/
theorem firstNumRun_eq_self_of_ne_nil {l : List Char} (hne : l ≠ [])
    (h : ∀ c ∈ l, numChar c = true) :
    LimpiadorEcommerce.firstNumRun l = some l := by
  cases l with
  | nil => exact absurd rfl hne
  | cons c t => exact firstNumRun_eq_self h

/-- `float` on a digit string with a single point computes the expected
scaled value. -/
theorem pyFloat_decimal {ipds fpds : List ℕ}
    (hip : ∀ d ∈ ipds, d < 10) (hfp : ∀ d ∈ fpds, d < 10) (hne : ipds ≠ []) :
    pyFloat (ipds.map digitChar10 ++ '.' :: fpds.map digitChar10) =
      .ok (mkRat (valDigits ipds * 10 ^ fpds.length + valDigits fpds : ℕ)
        (10 ^ fpds.length)) := by
  have hAmem : ∀ c ∈ ipds.map digitChar10, ∃ d, d < 10 ∧ c = digitChar10 d := by
    intro c hc
    obtain ⟨d, hd, he⟩ := List.mem_map.mp hc
    exact ⟨d, hip d hd, he.symm⟩
  have hBmem : ∀ c ∈ fpds.map digitChar10, ∃ d, d < 10 ∧ c = digitChar10 d := by
    intro c hc
    obtain ⟨d, hd, he⟩ := List.mem_map.mp hc
    exact ⟨d, hfp d hd, he.symm⟩
  have hAnd : '.' ∉ ipds.map digitChar10 := by
    intro hc
    obtain ⟨d, hd, he⟩ := hAmem '.' hc
    exact digitChar10_ne_dot hd he.symm
  have hBnd : '.' ∉ fpds.map digitChar10 := by
    intro hc
    obtain ⟨d, hd, he⟩ := hBmem '.' hc
    exact digitChar10_ne_dot hd he.symm
  have hall : (ipds.map digitChar10 ++ '.' :: fpds.map digitChar10).all digitDot = true := by
    rw [List.all_eq_true]
    intro c hc
    rcases List.mem_append.mp hc with hm | hm
    · obtain ⟨d, hd, he⟩ := hAmem c hm
      rw [he]; exact digitChar10_digitDot hd
    · rcases List.mem_cons.mp hm with he | hm'
      · rw [he]; rfl
      · obtain ⟨d, hd, he⟩ := hBmem c hm'
        rw [he]; exact digitChar10_digitDot hd
  have hcnt : (ipds.map digitChar10 ++ '.' :: fpds.map digitChar10).count '.' = 1 := by
    rw [List.count_append, List.count_cons_self,
      List.count_eq_zero.mpr hAnd, List.count_eq_zero.mpr hBnd]
  have hany : (ipds.map digitChar10 ++ '.' :: fpds.map digitChar10).any
      (fun c => c.isDigit) = true := by
    rw [List.any_eq_true]
    obtain ⟨d, hd⟩ := List.exists_mem_of_ne_nil ipds hne
    exact ⟨digitChar10 d, List.mem_append_left _ (List.mem_map_of_mem _ hd),
      digitChar10_isDigit (hip d hd)⟩
  have htake : (ipds.map digitChar10 ++ '.' :: fpds.map digitChar10).takeWhile
      (fun c => c != '.') = ipds.map digitChar10 := by
    apply takeWhile_append_stop
    · intro c hc
      obtain ⟨d, hd, he⟩ := hAmem c hc
      rw [he]
      simpa using digitChar10_ne_dot hd
    · rfl
  have hdrop : (ipds.map digitChar10 ++ '.' :: fpds.map digitChar10).dropWhile
      (fun c => c != '.') = '.' :: fpds.map digitChar10 := by
    apply dropWhile_append_stop
    · intro c hc
      obtain ⟨d, hd, he⟩ := hAmem c hc
      rw [he]
      simpa using digitChar10_ne_dot hd
    · rfl
  rw [pyFloat, if_pos (by rw [hall, hcnt, hany]; rfl)]
  rw [htake, hdrop]
  rw [List.drop_one, List.tail_cons]
  rw [natVal_map_digitChar hip, natVal_map_digitChar hfp, List.length_map]

/-- Parsing the printed decimal string of `n / 10^k` recovers `n / 10^k`:
the main round-trip computation behind claim C8. -/
theorem normalizar_decStr (n k : ℕ) (hk : 1 ≤ k) :
    LimpiadorEcommerce.normalizarPrecio (decStr n k) = .ok (some (mkRat n (10 ^ k))) := by
  have hlen := decDigits_length n k
  have hds10 : ∀ d ∈ decDigits n k, d < 10 := fun d hd => decDigits_lt_ten d hd
  have hip10 : ∀ d ∈ (decDigits n k).take ((decDigits n k).length - k), d < 10 :=
    fun d hd => hds10 d (List.take_subset _ _ hd)
  have hfp10 : ∀ d ∈ (decDigits n k).drop ((decDigits n k).length - k), d < 10 :=
    fun d hd => hds10 d (List.drop_subset _ _ hd)
  have hiplen : ((decDigits n k).take ((decDigits n k).length - k)).length =
      (decDigits n k).length - k := by
    rw [List.length_take]
    omega
  have hipne : (decDigits n k).take ((decDigits n k).length - k) ≠ [] := by
    intro he
    have := congrArg List.length he
    rw [hiplen] at this
    simp at this
    omega
  have hfplen : ((decDigits n k).drop ((decDigits n k).length - k)).length = k := by
    rw [List.length_drop]
    omega
  have hdata : (decStr n k).data =
      ((decDigits n k).take ((decDigits n k).length - k)).map digitChar10 ++
        '.' :: ((decDigits n k).drop ((decDigits n k).length - k)).map digitChar10 := rfl
  have hmem : ∀ c ∈ (decStr n k).data, c = '.' ∨ ∃ d, d < 10 ∧ c = digitChar10 d := by
    intro c hc
    rw [hdata] at hc
    rcases List.mem_append.mp hc with hm | hm
    · obtain ⟨d, hd, he⟩ := List.mem_map.mp hm
      exact Or.inr ⟨d, hip10 d hd, he.symm⟩
    · rcases List.mem_cons.mp hm with he | hm'
      · exact Or.inl he
      · obtain ⟨d, hd, he⟩ := List.mem_map.mp hm'
        exact Or.inr ⟨d, hfp10 d hd, he.symm⟩
  have hnospace : ∀ c ∈ (decStr n k).data, isPySpace c = false := by
    intro c hc
    rcases hmem c hc with he | ⟨d, hd, he⟩
    · rw [he]; rfl
    · rw [he]; exact digitChar10_not_space hd
  have hnocur : ∀ c ∈ (decStr n k).data, LimpiadorEcommerce.currencyStart c = false := by
    intro c hc
    rcases hmem c hc with he | ⟨d, hd, he⟩
    · rw [he]; rfl
    · rw [he]; exact digitChar10_not_currency hd
  have hnum : ∀ c ∈ (decStr n k).data, numChar c = true := by
    intro c hc
    rcases hmem c hc with he | ⟨d, hd, he⟩
    · rw [he]; rfl
    · rw [he]; exact digitChar10_numChar hd
  have hnocomma : ',' ∉ (decStr n k).data := by
    intro hc
    rcases hmem ',' hc with he | ⟨d, hd, he⟩
    · exact absurd he (by decide)
    · exact digitChar10_ne_comma hd he.symm
  have hne : (decStr n k).data ≠ [] := by
    rw [hdata]
    intro he
    have := congrArg List.length he
    simp at this
  have hstrip : pyStrip (decStr n k).data = (decStr n k).data := pyStrip_eq_self hnospace
  have hsearch : LimpiadorEcommerce.reSearch (pyStrip (decStr n k).data) = none := by
    rw [hstrip]
    exact LimpiadorEcommerce.reSearch_eq_none hnocur
  have hrun : LimpiadorEcommerce.firstNumRun (pyStrip (decStr n k).data) =
      some (decStr n k).data := by
    rw [hstrip]
    exact firstNumRun_eq_self_of_ne_nil hne hnum
  have hparse : LimpiadorEcommerce.parsearNumero (decStr n k).data =
      .ok (mkRat n (10 ^ k)) := by
    unfold LimpiadorEcommerce.parsearNumero
    rw [pyStrip_eq_self hnospace]
    rw [if_neg (by intro hb; exact hnocomma hb.1)]
    rw [if_neg hnocomma]
    rw [hdata, pyFloat_decimal hip10 hfp10 hipne]
    rw [hfplen]
    have hval : valDigits ((decDigits n k).take ((decDigits n k).length - k)) * 10 ^ k +
        valDigits ((decDigits n k).drop ((decDigits n k).length - k)) = n := by
      conv_rhs => rw [← valDigits_decDigits n k,
        ← List.take_append_drop ((decDigits n k).length - k) (decDigits n k)]
      rw [valDigits_append, hfplen]
    rw [hval]
  unfold LimpiadorEcommerce.normalizarPrecio
  simp only [hsearch, hrun, hparse]

/-- Claim C8: idempotence round trip — when a parse succeeds with value `v`
and `v` is printed as a plain decimal string (`v = n / 10^k` printed as
`decStr n k`, the form `str()` uses for these values), re-parsing that
string, which carries no currency marker, returns the same value `v`. -/
theorem reparse_stringified_value :
    ∀ (s : String) (v : ℚ) (n k : ℕ), 1 ≤ k →
      LimpiadorEcommerce.normalizarPrecio s = .ok (some v) →
      v = (n : ℚ) / 10 ^ k →
      LimpiadorEcommerce.normalizarPrecio (decStr n k) = .ok (some v) := by
  intro s v n k hk _ hv
  rw [normalizar_decStr n k hk, hv]
  rw [show (mkRat n (10 ^ k) : ℚ) = (n : ℚ) / 10 ^ k from by
    rw [Rat.mkRat_eq_div]; push_cast; ring]

/-- Witness for claim C8: `"5 USD"` parses to `5`, printed `"5.0"`
(`decStr 50 1`), which re-parses to `5`. -/
theorem reparse_stringified_value_witness :
    LimpiadorEcommerce.normalizarPrecio "5 USD" = .ok (some (5 : ℚ)) ∧
    LimpiadorEcommerce.normalizarPrecio (decStr 50 1) = .ok (some (5 : ℚ)) := by
  have h5 : LimpiadorEcommerce.normalizarPrecio "5 USD" = .ok (some (5 : ℚ)) := by
    have h : LimpiadorEcommerce.normalizarPrecio "5 USD" =
        .ok (some ((mkRat 5 1 : ℚ) / 1)) := rfl
    rw [h]
    norm_num [Rat.mkRat_eq_div]
  exact ⟨h5, reparse_stringified_value "5 USD" 5 50 1 (by norm_num) h5 (by norm_num)⟩

/-! ## Claim C10 (invariant of the cleaned description) -/

theorem head?_dropWhile_false (p : Char → Bool) (l : List Char) {c : Char}
    (h : (l.dropWhile p).head? = some c) : p c = false := by
  have := List.head?_dropWhile_not p l
  rw [h] at this
  exact this

/-- Every character of `collapseWs l` is a space or a non-space character
of `l`. -/
theorem collapseWs_mem {l : List Char} :
    ∀ c ∈ collapseWs l, c = ' ' ∨ (c ∈ l ∧ isPySpace c = false) := by
  induction l using collapseWs.induct with
  | case1 =>
    intro c hc
    rw [collapseWs] at hc
    exact absurd hc (List.not_mem_nil c)
  | case2 c t hsp ih =>
    intro x hx
    rw [collapseWs, if_pos hsp] at hx
    rcases List.mem_cons.mp hx with he | hm
    · exact Or.inl he
    · rcases ih x hm with he | ⟨hmem, hns⟩
      · exact Or.inl he
      · exact Or.inr ⟨List.mem_cons_of_mem c (List.dropWhile_subset _ hmem), hns⟩
  | case3 c t hsp ih =>
    intro x hx
    rw [collapseWs, if_neg hsp] at hx
    rcases List.mem_cons.mp hx with he | hm
    · subst he
      exact Or.inr ⟨List.mem_cons_self x t, Bool.eq_false_iff.mpr hsp⟩
    · rcases ih x hm with he | ⟨hmem, hns⟩
      · exact Or.inl he
      · exact Or.inr ⟨List.mem_cons_of_mem c hmem, hns⟩

/-- `collapseWs` never produces two adjacent whitespace characters. -/
theorem collapseWs_chain (l : List Char) : List.Chain' adjOk (collapseWs l) := by
  induction l using collapseWs.induct with
  | case1 => simp [collapseWs]
  | case2 c t hsp ih =>
    rw [collapseWs, if_pos hsp]
    rw [List.chain'_cons']
    refine ⟨?_, ih⟩
    intro y hy
    have hns : isPySpace y = false := by
      cases hdw : t.dropWhile isPySpace with
      | nil => rw [hdw] at hy; simp [collapseWs] at hy
      | cons r rt =>
        have hr : isPySpace r = false := by
          have : (t.dropWhile isPySpace).head? = some r := by rw [hdw]; rfl
          exact head?_dropWhile_false _ _ this
        rw [hdw, collapseWs, if_neg (Bool.eq_false_iff.mp hr)] at hy
        simp only [List.head?_cons, Option.mem_def, Option.some.injEq] at hy
        rw [← hy]
        exact hr
    intro hcon
    rw [hns] at hcon
    exact Bool.noConfusion hcon.2
  | case3 c t hsp ih =>
    rw [collapseWs, if_neg hsp]
    rw [List.chain'_cons']
    refine ⟨?_, ih⟩
    intro y _ hcon
    exact hsp hcon.1

/-- `adjOk` chains survive `strip()` (two suffix-extractions and reversals). -/
theorem pyStrip_chain {l : List Char} (h : List.Chain' adjOk l) :
    List.Chain' adjOk (pyStrip l) := by
  have hflip : ∀ {m : List Char}, List.Chain' adjOk m → List.Chain' (flip adjOk) m := by
    intro m hm
    exact List.Chain'.imp (fun a b hab => fun hc => hab ⟨hc.2, hc.1⟩) hm
  have hsuffix : ∀ {m m' : List Char}, m' <:+ m → List.Chain' adjOk m →
      List.Chain' adjOk m' := by
    intro m m' hs hm
    obtain ⟨pre, rfl⟩ := hs
    exact hm.right_of_append
  have h1 : List.Chain' adjOk (l.dropWhile isPySpace) :=
    hsuffix (List.dropWhile_suffix isPySpace) h
  have h2 : List.Chain' adjOk ((l.dropWhile isPySpace).reverse) :=
    List.chain'_reverse.mpr (hflip h1)
  have h3 : List.Chain' adjOk (((l.dropWhile isPySpace).reverse).dropWhile isPySpace) :=
    hsuffix (List.dropWhile_suffix isPySpace) h2
  exact List.chain'_reverse.mpr (hflip h3)

/-- `strip()` leaves a sublist: membership transfers. -/
theorem pyStrip_subset {l : List Char} : ∀ c ∈ pyStrip l, c ∈ l := by
  intro c hc
  unfold pyStrip at hc
  rw [List.mem_reverse] at hc
  have h1 := List.dropWhile_subset isPySpace hc
  rw [List.mem_reverse] at h1
  exact List.dropWhile_subset isPySpace h1

/-- The head of a stripped list is not whitespace. -/
theorem pyStrip_head {l : List Char} {c : Char} (h : (pyStrip l).head? = some c) :
    isPySpace c = false := by
  unfold pyStrip at h
  have hpre : ((l.dropWhile isPySpace).reverse.dropWhile isPySpace).reverse <+:
      l.dropWhile isPySpace := by
    have h0 : (l.dropWhile isPySpace).reverse.dropWhile isPySpace <:+
        (l.dropWhile isPySpace).reverse := List.dropWhile_suffix isPySpace
    have h1 := List.reverse_prefix.mpr h0
    rwa [List.reverse_reverse] at h1
  obtain ⟨rest, hrest⟩ := hpre
  cases hc : ((l.dropWhile isPySpace).reverse.dropWhile isPySpace).reverse with
  | nil => rw [hc] at h; exact Option.noConfusion h
  | cons x xs =>
    rw [hc] at h hrest
    simp only [List.head?_cons, Option.some.injEq] at h
    subst h
    apply head?_dropWhile_false isPySpace l
    rw [← hrest]
    rfl

/-- The last character of a stripped list is not whitespace. -/
theorem pyStrip_getLast {l : List Char} {c : Char} (h : (pyStrip l).getLast? = some c) :
    isPySpace c = false := by
  unfold pyStrip at h
  rw [List.getLast?_reverse] at h
  exact head?_dropWhile_false _ _ h

/-- Claim C10: invariant of `limpiar_descripcion` — every output character is
a word character, a single space, or one of `. , ! ? ( ) -`; no two adjacent
whitespace characters; no leading or trailing whitespace; and in particular
`<`, `>` and `&` never occur, even though entity decoding reintroduces them
after tag removal (the character filter runs afterwards and removes them). -/
theorem limpiar_descripcion_invariant :
    ∀ s : String,
      (∀ c ∈ (LimpiadorEcommerce.limpiarDescripcion s).data, allowedOut c = true) ∧
      List.Chain' adjOk (LimpiadorEcommerce.limpiarDescripcion s).data ∧
      (∀ c, (LimpiadorEcommerce.limpiarDescripcion s).data.head? = some c →
        isPySpace c = false) ∧
      (∀ c, (LimpiadorEcommerce.limpiarDescripcion s).data.getLast? = some c →
        isPySpace c = false) ∧
      '<' ∉ (LimpiadorEcommerce.limpiarDescripcion s).data ∧
      '>' ∉ (LimpiadorEcommerce.limpiarDescripcion s).data ∧
      '&' ∉ (LimpiadorEcommerce.limpiarDescripcion s).data := by
  intro s
  have hdata : (LimpiadorEcommerce.limpiarDescripcion s).data =
      pyStrip (collapseWs ((applyEntidades (removeTags s.data)).filter allowedChar)) := rfl
  have hmem : ∀ c ∈ (LimpiadorEcommerce.limpiarDescripcion s).data, allowedOut c = true := by
    intro c hc
    rw [hdata] at hc
    have h1 := pyStrip_subset c hc
    rcases collapseWs_mem c h1 with he | ⟨hmem2, hns⟩
    · rw [he]; rfl
    · have hall : allowedChar c = true := List.of_mem_filter hmem2
      simp only [allowedChar, Bool.or_eq_true] at hall
      simp only [allowedOut, Bool.or_eq_true]
      simp only [hns, Bool.false_eq_true, or_false, false_or] at hall
      tauto
  refine ⟨hmem, ?_, ?_, ?_, ?_, ?_, ?_⟩
  · rw [hdata]
    exact pyStrip_chain (collapseWs_chain _)
  · intro c hc
    rw [hdata] at hc
    exact pyStrip_head hc
  · intro c hc
    rw [hdata] at hc
    exact pyStrip_getLast hc
  · intro hc
    have := hmem '<' hc
    exact absurd this (by decide)
  · intro hc
    have := hmem '>' hc
    exact absurd this (by decide)
  · intro hc
    have := hmem '&' hc
    exact absurd this (by decide)

/-- Witness for claim C10 at a concrete HTML-laden input. -/
theorem limpiar_descripcion_invariant_witness :
    '<' ∉ (LimpiadorEcommerce.limpiarDescripcion "<p>a &lt;b&gt; &amp; c</p>").data ∧
    '&' ∉ (LimpiadorEcommerce.limpiarDescripcion "<p>a &lt;b&gt; &amp; c</p>").data :=
  ⟨(limpiar_descripcion_invariant "<p>a &lt;b&gt; &amp; c</p>").2.2.2.2.1,
   (limpiar_descripcion_invariant "<p>a &lt;b&gt; &amp; c</p>").2.2.2.2.2.2⟩
